import Mathlib

/-!
Verification development for the `get_top_words.py` frequency-list builder.

The Python module is shallowly embedded: Python strings become `List Char`,
Python dicts (insertion ordered) become association lists, Python `set`
becomes a canonical sorted duplicate-free `List String`, Python `int`
becomes `Int` and Python `float` becomes the exact decimal type `PyNum`
(the pipeline only parses decimal literals and compares / adds values, all
of which are exact).  File I/O is elided: a file is its list of lines.
-/

namespace Glossia

/-- Characters of a Python string. -/
abbrev Str := List Char

/-- Model of Python `str.lower()` applied per character (ASCII case folding). -/
def lowerStr (s : Str) : Str := s.map Char.toLower

/-- Whitespace test used by Python `str.strip()`. -/
def isWS (c : Char) : Bool := c.isWhitespace

/-- Model of Python `str.strip()`: drop leading and trailing whitespace. -/
def stripChars (s : Str) : Str :=
  ((s.dropWhile isWS).reverse.dropWhile isWS).reverse

/-- Model of Python `str.split(sep)` for a one-character separator:
splits on every occurrence, keeping empty fields. -/
def splitOnChar (sep : Char) : Str → List Str
  | [] => [[]]
  | c :: cs =>
    match splitOnChar sep cs with
    | [] => [[]]
    | p :: ps => if c = sep then [] :: p :: ps else (c :: p) :: ps

/-- Model of Python `str.split(sep, 1)`: the part before the first separator
and the remainder after it (both unchanged when the separator is absent,
which is the only situation in which the source uses the second component
incorrectly — the source always guards with a membership test first). -/
def splitFirst (sep : Char) : Str → Str × Str
  | [] => ([], [])
  | c :: cs =>
    if c = sep then ([], cs)
    else (c :: (splitFirst sep cs).1, (splitFirst sep cs).2)

/-- Value of a digit run, most significant first. -/
def digitsVal (s : Str) : Nat := s.foldl (fun a c => a * 10 + (c.toNat - 48)) 0

/-- Nonempty run of ASCII digits. -/
def allDigits (s : Str) : Bool := !s.isEmpty && s.all (·.isDigit)

/-- Model of Python `int(str)`: optional sign and a nonempty digit run,
surrounding whitespace ignored. -/
def parseInt (s : Str) : Option Int :=
  match stripChars s with
  | '-' :: r => if allDigits r then some (-(digitsVal r : Int)) else none
  | '+' :: r => if allDigits r then some (digitsVal r : Int) else none
  | r => if allDigits r then some (digitsVal r : Int) else none

/-- `10 ^ n` as an integer, by structural recursion so the kernel can
evaluate it. -/
def pow10 : Nat → Int
  | 0 => 1
  | n + 1 => 10 * pow10 n

/-- Exact value of a Python float as it flows through this pipeline: the
rational `num / 10 ^ e`.  The pipeline only ever parses decimal literals,
adds and compares, all exact, so this representation is faithful; it is
used instead of `ℚ` because its operations are plain `Int` arithmetic,
which the kernel can evaluate. -/
structure PyNum where
  num : Int
  e : Nat
deriving DecidableEq, Repr

/-- Embed an integer count. -/
def PyNum.ofInt (n : Int) : PyNum := ⟨n, 0⟩

/-- Exact addition. -/
def PyNum.add (a b : PyNum) : PyNum :=
  ⟨a.num * pow10 b.e + b.num * pow10 a.e, a.e + b.e⟩

/-- Negation. -/
def PyNum.neg (a : PyNum) : PyNum := ⟨-a.num, a.e⟩

/-- Strict comparison by cross multiplication (denominators are positive). -/
def PyNum.lt (a b : PyNum) : Prop := a.num * pow10 b.e < b.num * pow10 a.e

/-- Non-strict comparison by cross multiplication. -/
def PyNum.le (a b : PyNum) : Prop := a.num * pow10 b.e ≤ b.num * pow10 a.e

instance (a b : PyNum) : Decidable (PyNum.lt a b) :=
  inferInstanceAs (Decidable (_ < _))

instance (a b : PyNum) : Decidable (PyNum.le a b) :=
  inferInstanceAs (Decidable (_ ≤ _))

/-- The rational value represented. -/
def PyNum.toRat (a : PyNum) : ℚ := (a.num : ℚ) / ((pow10 a.e : Int) : ℚ)

/-- Unsigned part of a Python `float` literal: `digits [. digits]` or
`. digits` (at least one digit overall). -/
def parseUnsignedFloat (s : Str) : Option PyNum :=
  if '.' ∈ s then
    let a := (splitFirst '.' s).1
    let b := (splitFirst '.' s).2
    if '.' ∈ b then none
    else if a.isEmpty && b.isEmpty then none
    else if a.all (·.isDigit) && b.all (·.isDigit) then
      some ⟨(digitsVal a * 10 ^ b.length + digitsVal b : Nat), b.length⟩
    else none
  else if allDigits s then some ⟨(digitsVal s : Nat), 0⟩ else none

/-- Model of Python `float(str)` restricted to plain decimal literals
`[sign] digits [. digits]`, surrounding whitespace ignored.  Exponent,
`inf` and `nan` forms do not occur in the data this pipeline consumes and
are not modelled. -/
def parseFloat (s : Str) : Option PyNum :=
  match stripChars s with
  | '-' :: r => (parseUnsignedFloat r).map PyNum.neg
  | '+' :: r => parseUnsignedFloat r
  | r => parseUnsignedFloat r

/-- Word character for the regex word-boundary semantics (`\w`, ASCII). -/
def isWordChar (c : Char) : Bool := c.isAlphanum || c = '_'

/-- The character before the match position allows a word boundary that is
immediately followed by a word character (start of string, or non-word). -/
def boundaryBefore : Option Char → Bool
  | none => true
  | some c => !isWordChar c

/-- Word-boundary test at a position: `lastWord` says whether the previously
consumed character was a word character; the argument is the remaining
input. -/
def bAt (lastWord : Bool) : Str → Bool
  | [] => lastWord
  | c :: _ => lastWord != isWordChar c

/-- Consume a literal pattern from the front of the input. -/
def dropLit : Str → Str → Option Str
  | [], s => some s
  | _ :: _, [] => none
  | p :: ps, c :: cs => if c = p then dropLit ps cs else none

/-- Anchored matcher for the regex `\bW\.?\b` for a literal word `W` made of
word characters: after `W` either the trailing boundary holds directly, or a
literal dot is consumed and the boundary holds after the dot (regex
backtracking tries both). -/
def matchBareOrDot (w : Str) (prev : Option Char) (s : Str) : Bool :=
  boundaryBefore prev &&
  match dropLit w s with
  | none => false
  | some rest =>
    bAt true rest ||
    match rest with
    | '.' :: r => bAt false r
    | _ => false

/-- After consuming the `t` or `i` of `\bv\.?\s*(t\.?|i\.?)?\b`: optional dot,
then the final boundary. -/
def afterTI (rest : Str) : Bool :=
  bAt true rest ||
  match rest with
  | '.' :: r => bAt false r
  | _ => false

/-- After the `\s*` of the verb pattern: either the optional group is empty and
the final boundary holds here, or a `t`/`i` alternative matches. -/
def afterSpaces (lastWord : Bool) (rest : Str) : Bool :=
  bAt lastWord rest ||
  match rest with
  | c :: r => (c = 't' || c = 'i') && afterTI r
  | [] => false

/-- Backtracking consumption of `\s*` in the verb pattern: try every split. -/
def spacesLoop (lastWord : Bool) : Str → Bool
  | [] => afterSpaces lastWord []
  | c :: r => afterSpaces lastWord (c :: r) || (isWS c && spacesLoop false r)

/-- Anchored matcher for the regex `\bv\.?\s*(t\.?|i\.?)?\b`. -/
def matchVerbAt (prev : Option Char) (s : Str) : Bool :=
  boundaryBefore prev &&
  match s with
  | 'v' :: rest =>
    spacesLoop true rest ||
    (match rest with
     | '.' :: r => spacesLoop false r
     | _ => false)
  | _ => false

/-- Search loop for `re.search`: try the anchored matcher at every position,
tracking the preceding character. -/
def reSearchGo (m : Option Char → Str → Bool) : Option Char → Str → Bool
  | prev, [] => m prev []
  | prev, c :: cs => m prev (c :: cs) || reSearchGo m (some c) cs

/-- Model of `re.search(pattern, s)` for the anchored matcher `m`. -/
def reSearch (m : Option Char → Str → Bool) (s : Str) : Bool :=
  reSearchGo m none s

/-- Substring search loop: the pattern matches at some suffix position. -/
def containsSubL (pat : Str) : Str → Bool
  | [] => (dropLit pat []).isSome
  | c :: cs => (dropLit pat (c :: cs)).isSome || containsSubL pat cs

/-- Model of Python `pat in s` substring membership. -/
def containsSub (pat : String) (s : Str) : Bool := containsSubL pat.toList s

/-- Model of a Python `set` of POS tag strings, kept as a canonical
strictly-sorted duplicate-free list so that set equality is list equality
and every operation is executable. -/
abbrev Tags := List String

/-- Lexicographic code-point comparison of character lists: the order Python
uses to compare strings. -/
def strLt : List Char → List Char → Bool
  | [], [] => false
  | [], _ :: _ => true
  | _ :: _, [] => false
  | c :: cs, d :: ds => c.toNat < d.toNat || (c = d && strLt cs ds)

/-- Set insertion into the canonical sorted representation. -/
def tagInsert (t : String) : Tags → Tags
  | [] => [t]
  | u :: us =>
    if t = u then u :: us
    else if strLt t.toList u.toList then t :: u :: us
    else u :: tagInsert t us

/-- Set union (Python `set.update` / `|`). -/
def tagUnion (a b : Tags) : Tags := b.foldl (fun acc t => tagInsert t acc) a

/-- Conditional `set.add`, modelling one `if ...: pos_tags.add(T)` block. -/
def addIf (b : Bool) (t : String) (acc : Tags) : Tags :=
  if b then tagInsert t acc else acc

/-- Model of `normalize_pos`: lowercase and strip the input, then run the
independent pattern tests of the source, each contributing one tag. -/
def normalize_pos (p : Str) : Tags :=
  if p.isEmpty then []
  else
    let s := lowerStr (stripChars p)
    addIf (containsSub "def. art." s || containsSub "definite article" s ||
        containsSub "det." s) "Det"
      (addIf (reSearch (matchBareOrDot ['p', 'r', 'o', 'n']) s || containsSub "pronoun" s) "Pron"
      (addIf (reSearch (matchBareOrDot ['c', 'o', 'n', 'j']) s || containsSub "conjunction" s)
        "Conj"
      (addIf (reSearch (matchBareOrDot ['p', 'r', 'e', 'p']) s || containsSub "preposition" s)
        "Prep"
      (addIf (reSearch (matchBareOrDot ['a', 'd', 'v']) s || containsSub "adverb" s) "Adv"
      (addIf (reSearch (matchBareOrDot ['a']) s || reSearch (matchBareOrDot ['a', 'd', 'j']) s ||
          containsSub "adjective" s) "Adj"
      (addIf (reSearch matchVerbAt s || containsSub "verb" s) "V"
      (addIf (reSearch (matchBareOrDot ['n']) s || containsSub "noun" s) "N" [])))))))

/-- The per-word aggregate record: a dict value `{'freq': ..., 'pos': ...}`. -/
structure Entry where
  freq : PyNum
  pos : Tags
deriving DecidableEq, Repr

/-- A Python dict keyed by word, insertion ordered. -/
abbrev WordMap := List (Str × Entry)

/-- Dict lookup (first matching key; keys are unique in practice). -/
def lookupW : WordMap → Str → Option Entry
  | [], _ => none
  | (w', e) :: rest, w => if w' = w then some e else lookupW rest w

/-- Dict assignment: update in place when the key exists, append otherwise. -/
def setW : WordMap → Str → Entry → WordMap
  | [], w, e => [(w, e)]
  | (w', e') :: rest, w, e =>
    if w' = w then (w', e) :: rest else (w', e') :: setW rest w e

/-- Model of Python `str.isalpha()`: nonempty and alphabetic only. -/
def pyIsAlphaStr (w : Str) : Bool := !w.isEmpty && w.all (·.isAlpha)

/-- The adapters' emission guard `word and len(word) <= 6 and word.isalpha()`. -/
def keepWord (w : Str) : Bool := !w.isEmpty && decide (w.length ≤ 6) && pyIsAlphaStr w

/-- Model of `parse_ngram_line`: split the stripped line on tabs, lowercase
the word, split an optional `word_POS` suffix, and parse the match count. -/
def parse_ngram_line (line : Str) : Option (Str × Int × Tags) :=
  let parts := splitOnChar '\t' (stripChars line)
  if 3 ≤ parts.length then
    let word0 := lowerStr (parts.getD 0 [])
    let wp :=
      if '_' ∈ word0 then
        ((splitFirst '_' word0).1, normalize_pos (splitFirst '_' word0).2)
      else (word0, ([] : Tags))
    match parseInt (parts.getD 2 []) with
    | some n => some (wp.1, n, wp.2)
    | none => none
  else none

/-- One `defaultdict` accumulation step: `word_data[w]['freq'] += f` and
`word_data[w]['pos'].update(p)`, with default `{'freq': 0, 'pos': set()}`. -/
def mergeAdd (m : WordMap) (w : Str) (f : PyNum) (p : Tags) : WordMap :=
  let e := (lookupW m w).getD ⟨.ofInt 0, []⟩
  setW m w ⟨e.freq.add f, tagUnion e.pos p⟩

/-- One line of `process_ngram_file`'s loop. -/
def ngramLine (m : WordMap) (line : Str) : WordMap :=
  match parse_ngram_line line with
  | some (w, c, p) => if keepWord w then mergeAdd m w (.ofInt c) p else m
  | none => m

/-- Model of `process_ngram_file` on the file's decoded lines. -/
def process_ngram_file (lines : List Str) : WordMap :=
  lines.foldl ngramLine []

/-- First field of `parts[3:]` that parses as a float. -/
def firstFloat : List Str → Option PyNum
  | [] => none
  | p :: ps =>
    match parseFloat (stripChars p) with
    | some f => some f
    | none => firstFloat ps

/-- One separator attempt of `parse_wordfrequency_line`: membership test on
the raw line, split the stripped line, validate the rank field, extract word,
POS text and first parseable frequency.  `none` moves on to the next
separator, like the source's `continue`. -/
def parse_wf_sep (sep : Char) (line : Str) : Option (Str × PyNum × Tags) :=
  if sep ∈ line then
    let parts := splitOnChar sep (stripChars line)
    if 4 ≤ parts.length then
      match parseInt (parts.getD 0 []) with
      | none => none
      | some _ =>
        let word1 := lowerStr (stripChars (parts.getD 1 []))
        let pos0 := stripChars (parts.getD 2 [])
        let wp :=
          if '_' ∈ word1 then
            ((splitFirst '_' word1).1,
              if pos0.isEmpty then (splitFirst '_' word1).2 else pos0)
          else (word1, pos0)
        match firstFloat (parts.drop 3) with
        | some f => if wp.1.isEmpty then none else some (wp.1, f, normalize_pos wp.2)
        | none => none
    else none
  else none

/-- Model of `parse_wordfrequency_line`: try tab, then pipe, then comma. -/
def parse_wordfrequency_line (line : Str) : Option (Str × PyNum × Tags) :=
  (parse_wf_sep '\t' line) <|> (parse_wf_sep '|' line) <|> (parse_wf_sep ',' line)

/-- The lemma-frequency duplicate policy: keep the larger frequency, union POS
tags regardless of which frequency wins. -/
def wfInsert (m : WordMap) (w : Str) (f : PyNum) (p : Tags) : WordMap :=
  match lookupW m w with
  | none => setW m w ⟨f, p⟩
  | some e => setW m w ⟨if e.freq.lt f then f else e.freq, tagUnion e.pos p⟩

/-- One data line of `get_top_words_from_wordfrequency`'s loop. -/
def wfLine (m : WordMap) (line : Str) : WordMap :=
  match parse_wordfrequency_line line with
  | some (w, f, p) => if keepWord w then wfInsert m w f p else m
  | none => m

/-- The lemma-frequency header test for the line with index `n`. -/
def wfHdr (n : Nat) (line : Str) : Bool :=
  containsSub "rank" (lowerStr line) || containsSub "lemma" (lowerStr line) || decide (n < 2)

/-- The loop of `get_top_words_from_wordfrequency`: `hs` is `header_skipped`,
`n` the `enumerate` index. -/
def wfGo (hs : Bool) (n : Nat) (m : WordMap) : List Str → WordMap
  | [] => m
  | line :: rest =>
    if !hs && wfHdr n line then wfGo true (n + 1) m rest
    else wfGo hs (n + 1) (wfLine m line) rest

/-- Model of `get_top_words_from_wordfrequency` on the file's lines. -/
def get_top_words_from_wordfrequency (lines : List Str) : WordMap :=
  wfGo false 0 [] lines

/-- The CSV duplicate policy: keep the larger frequency, POS tags untouched. -/
def csvInsert (m : WordMap) (w : Str) (f : PyNum) : WordMap :=
  match lookupW m w with
  | none => setW m w ⟨f, []⟩
  | some e => if e.freq.lt f then setW m w ⟨f, e.pos⟩ else m

/-- One data line of `get_top_words_from_csv`'s loop. -/
def csvLine (m : WordMap) (line : Str) : WordMap :=
  let parts := splitOnChar ',' (stripChars line)
  if 2 ≤ parts.length then
    let word := lowerStr (stripChars (parts.getD 0 []))
    match parseFloat (stripChars (parts.getD 1 [])) with
    | some f => if keepWord word then csvInsert m word f else m
    | none => m
  else m

/-- The CSV header test: the line contains `word` or `freq`, case-insensitive. -/
def csvHdr (line : Str) : Bool :=
  containsSub "word" (lowerStr line) || containsSub "freq" (lowerStr line)

/-- The loop of `get_top_words_from_csv`: `hs` is `header_skipped`. -/
def csvGo (hs : Bool) (m : WordMap) : List Str → WordMap
  | [] => m
  | line :: rest =>
    if !hs && csvHdr line then csvGo true m rest
    else csvGo hs (csvLine m line) rest

/-- Model of `get_top_words_from_csv` on the file's lines. -/
def get_top_words_from_csv (lines : List Str) : WordMap :=
  csvGo false [] lines

/-- The `__main__` ngram merge loop folds one processed file into the
accumulator entry by entry, summing frequencies and unioning POS sets. -/
def mergeInto (acc m2 : WordMap) : WordMap :=
  m2.foldl (fun a we => mergeAdd a we.1 we.2.freq we.2.pos) acc

/-- The `__main__` multi-file ngram branch. -/
def mergeNgramFiles (files : List (List Str)) : WordMap :=
  files.foldl (fun acc f => mergeInto acc (process_ngram_file f)) []

/-- The mutually exclusive input kinds of a run (the remote-download kind
feeds the lemma-frequency adapter and is content-wise the same source). -/
inductive SourceInput where
  | ngram (files : List (List Str))
  | wordfreq (lines : List Str)
  | csv (lines : List Str)

/-- The `word_data` aggregate `__main__` holds after the source branch. -/
def sourceWordData : SourceInput → WordMap
  | .ngram files => mergeNgramFiles files
  | .wordfreq lines => get_top_words_from_wordfrequency lines
  | .csv lines => get_top_words_from_csv lines

/-- The defensive re-filter before ranking: `len(w) <= 6 and w.isalpha()`. -/
def finalKeep (w : Str) : Bool := decide (w.length ≤ 6) && pyIsAlphaStr w

/-- Denominators are positive. -/
theorem pow10_pos (n : Nat) : 0 < pow10 n := by
  induction n with
  | zero => decide
  | succ k ih => simpa [pow10] using by positivity

/-- Totality of the cross-multiplication order. -/
theorem PyNum.le_total (a b : PyNum) : a.le b ∨ b.le a := Int.le_total _ _

/-- Transitivity of the cross-multiplication order. -/
theorem PyNum.le_trans {a b c : PyNum} (h1 : a.le b) (h2 : b.le c) : a.le c := by
  unfold PyNum.le at h1 h2 ⊢
  nlinarith [pow10_pos a.e, pow10_pos b.e, pow10_pos c.e]

/-- Sort key relation of `sorted(..., key=freq, reverse=True)`. -/
def freqGE (x y : Str × Entry) : Prop := PyNum.le y.2.freq x.2.freq

instance : DecidableRel freqGE := fun x y => inferInstanceAs (Decidable (PyNum.le y.2.freq x.2.freq))

instance : IsTotal (Str × Entry) freqGE := ⟨fun x y => PyNum.le_total y.2.freq x.2.freq⟩

instance : IsTrans (Str × Entry) freqGE := ⟨fun _ _ _ h1 h2 => PyNum.le_trans h2 h1⟩

/-- `sorted_words`: filter, sort by frequency descending, truncate to top N. -/
def rankedEntries (wd : WordMap) (topN : Nat) : WordMap :=
  (List.insertionSort freqGE (wd.filter (fun x => finalKeep x.1))).take topN

/-- Python `sorted` on a tag set (ascending lexicographic). -/
def sortedTags (p : Tags) : List String :=
  List.insertionSort (fun a b => !strLt b.toList a.toList) p

/-- One output line: `word|TAG1,TAG2` when tags exist, bare `word` otherwise. -/
def formatLine (w : Str) (e : Entry) : Str :=
  if e.pos.isEmpty then w
  else w ++ '|' :: (String.intercalate "," (sortedTags e.pos)).toList

instance {ε α : Type} [DecidableEq ε] [DecidableEq α] : DecidableEq (Except ε α) := fun a b =>
  match a, b with
  | .error x, .error y => decidable_of_iff (x = y) (by simp)
  | .ok x, .ok y => decidable_of_iff (x = y) (by simp)
  | .error _, .ok _ => isFalse (by simp)
  | .ok _, .error _ => isFalse (by simp)

/-- The `__main__` tail: abort with exit code 1 when the aggregate is empty,
otherwise emit the ranked, formatted lines. -/
def runMain (src : SourceInput) (topN : Nat) : Except Unit (List Str) :=
  let wd := sourceWordData src
  if wd.isEmpty then .error ()
  else .ok ((rankedEntries wd topN).map (fun x => formatLine x.1 x.2))

/-- Recorded frequency of `w` in the aggregate, as a rational; 0 when absent. -/
def freqOf (m : WordMap) (w : Str) : ℚ :=
  match lookupW m w with
  | some e => e.freq.toRat
  | none => 0

/-- The contribution of one ngram line to the aggregated frequency of `w`:
its match count when the line parses, survives the emission guard and is
about `w`; 0 otherwise. -/
def ngramContrib (w : Str) (line : Str) : ℚ :=
  match parse_ngram_line line with
  | some (w', c, _) => if keepWord w' = true ∧ w' = w then (c : ℚ) else 0
  | none => 0

/-- Keys of the aggregate dict, in insertion order. -/
def keys (m : WordMap) : List Str := m.map (fun we => we.1)

/-- Lemma-frequency processing with the header logic removed. -/
def wfPlain (m : WordMap) (lines : List Str) : WordMap := lines.foldl wfLine m

/-- CSV processing with the header logic removed. -/
def csvPlain (m : WordMap) (lines : List Str) : WordMap := lines.foldl csvLine m

/-- Remove the first line matching the CSV header test, keep everything else. -/
def removeFirstCsvHdr : List Str → List Str
  | [] => []
  | l :: ls => if csvHdr l then ls else l :: removeFirstCsvHdr ls

/-- Modelled from the spec: the header rule as the claim states it for the
lemma-frequency adapter — the first two lines are always headers, and any
later line containing "rank" or "lemma" (case-insensitive) is also a
header.  Introduced only to compare the claimed rule with the code's. -/
def wfClaimHdr (n : Nat) (line : Str) : Bool :=
  decide (n < 2) || containsSub "rank" (lowerStr line) || containsSub "lemma" (lowerStr line)

/-- Modelled from the spec: the data lines the claimed header rule keeps. -/
def wfClaimKept (n : Nat) : List Str → List Str
  | [] => []
  | l :: ls => if wfClaimHdr n l then wfClaimKept (n + 1) ls else l :: wfClaimKept (n + 1) ls

/-- Modelled from the spec: lemma-frequency processing under the claimed
header rule. -/
def wfClaimProcess (lines : List Str) : WordMap := wfPlain [] (wfClaimKept 0 lines)

/-- The fixed POS vocabulary. -/
def posVocab : List String := ["N", "V", "Adj", "Adv", "Prep", "Conj", "Pron", "Det"]

/-- Every character of the word is fixed by lowercasing. -/
def lowChars (w : Str) : Prop := ∀ c ∈ w, c.toLower = c

/-- Every recorded frequency in the aggregate is non-negative. -/
def nonnegMap (m : WordMap) : Prop := ∀ we ∈ m, (0 : ℚ) ≤ we.2.freq.toRat

/-- Every key of the aggregate satisfies `P`. -/
def keysSat (P : Str → Prop) (m : WordMap) : Prop := ∀ x ∈ m, P x.1

/-- The invariant every adapter enforces on inserted words: the emission
guard holds and the word is already lowercased. -/
def goodW (w : Str) : Prop := keepWord w = true ∧ lowChars w

/-! ### Helper lemmas -/

theorem char_toLower_of_not_upper {c : Char} (h : ¬(65 ≤ c.toNat ∧ c.toNat ≤ 90)) :
    c.toLower = c := by
  unfold Char.toLower
  simp only [ge_iff_le]
  rw [if_neg h]

theorem char_toNat_toLower_of_upper {c : Char} (h : 65 ≤ c.toNat ∧ c.toNat ≤ 90) :
    c.toLower.toNat = c.toNat + 32 := by
  unfold Char.toLower
  simp only [ge_iff_le]
  rw [if_pos h]
  have hv : Nat.isValidChar (c.toNat + 32) := Or.inl (by omega)
  simp [Char.ofNat, hv]
  rfl

theorem char_toLower_toLower (c : Char) : c.toLower.toLower = c.toLower := by
  by_cases h : 65 ≤ c.toNat ∧ c.toNat ≤ 90
  · apply char_toLower_of_not_upper
    rw [char_toNat_toLower_of_upper h]
    omega
  · rw [char_toLower_of_not_upper h, char_toLower_of_not_upper h]

theorem lowChars_lowerStr (s : Str) : lowChars (lowerStr s) := by
  intro c hc
  rcases List.mem_map.1 hc with ⟨d, _, rfl⟩
  exact char_toLower_toLower d

theorem lowerStr_eq_self {w : Str} (h : lowChars w) : lowerStr w = w :=
  List.map_congr_left h |>.trans (List.map_id w)

theorem mem_splitFirst_fst {sep c : Char} {s : Str} (h : c ∈ (splitFirst sep s).1) : c ∈ s := by
  induction s with
  | nil => simp [splitFirst] at h
  | cons d ds ih =>
    by_cases hd : d = sep
    · simp [splitFirst, hd] at h
    · simp only [splitFirst, if_neg hd, List.mem_cons] at h
      rcases h with h | h
      · exact h ▸ List.mem_cons_self d ds
      · exact List.mem_cons_of_mem d (ih h)

theorem lowChars_splitFirst_fst {sep : Char} {s : Str} (h : lowChars s) :
    lowChars (splitFirst sep s).1 :=
  fun c hc => h c (mem_splitFirst_fst hc)

theorem pow10_rat_pos (n : Nat) : (0 : ℚ) < ((pow10 n : Int) : ℚ) := by
  exact_mod_cast pow10_pos n

theorem pow10_rat_ne_zero (n : Nat) : ((pow10 n : Int) : ℚ) ≠ 0 :=
  ne_of_gt (pow10_rat_pos n)

theorem PyNum.toRat_ofInt (n : Int) : (PyNum.ofInt n).toRat = (n : ℚ) := by
  simp [PyNum.toRat, PyNum.ofInt, pow10]

theorem PyNum.toRat_add (a b : PyNum) : (a.add b).toRat = a.toRat + b.toRat := by
  unfold PyNum.toRat PyNum.add
  have ha := pow10_rat_ne_zero a.e
  have hb := pow10_rat_ne_zero b.e
  have hab : ((pow10 (a.e + b.e) : Int) : ℚ) = ((pow10 a.e : Int) : ℚ) * ((pow10 b.e : Int) : ℚ) := by
    have : pow10 (a.e + b.e) = pow10 a.e * pow10 b.e := by
      induction a.e with
      | zero => simp [pow10]
      | succ k ih => simp [pow10, Nat.succ_add, ih]; ring
    rw [this]; push_cast; ring
  push_cast
  rw [hab]
  field_simp

theorem PyNum.lt_iff {a b : PyNum} : a.lt b ↔ a.toRat < b.toRat := by
  unfold PyNum.lt PyNum.toRat
  rw [div_lt_div_iff₀ (pow10_rat_pos a.e) (pow10_rat_pos b.e)]
  constructor
  · intro h; exact_mod_cast h
  · intro h; exact_mod_cast h

theorem PyNum.le_iff {a b : PyNum} : a.le b ↔ a.toRat ≤ b.toRat := by
  unfold PyNum.le PyNum.toRat
  rw [div_le_div_iff₀ (pow10_rat_pos a.e) (pow10_rat_pos b.e)]
  constructor
  · intro h; exact_mod_cast h
  · intro h; exact_mod_cast h

theorem mem_tagInsert {x t : String} {acc : Tags} (hx : x ∈ tagInsert t acc) :
    x = t ∨ x ∈ acc := by
  induction acc with
  | nil => simpa [tagInsert] using hx
  | cons u us ih =>
    by_cases h1 : t = u
    · rw [tagInsert, if_pos h1] at hx
      exact .inr hx
    · by_cases h2 : strLt t.toList u.toList
      · rw [tagInsert, if_neg h1, if_pos h2] at hx
        rcases List.mem_cons.1 hx with h | h
        · exact .inl h
        · exact .inr h
      · rw [tagInsert, if_neg h1, if_neg h2] at hx
        rcases List.mem_cons.1 hx with h | h
        · exact .inr (h ▸ List.mem_cons_self u us)
        · rcases ih h with h' | h'
          · exact .inl h'
          · exact .inr (List.mem_cons_of_mem u h')

theorem addIf_subset {b : Bool} {t : String} {acc : Tags} {v : List String}
    (ht : t ∈ v) (hacc : acc ⊆ v) : addIf b t acc ⊆ v := by
  unfold addIf
  split
  · intro x hx
    rcases mem_tagInsert hx with h | h
    · exact h ▸ ht
    · exact hacc h
  · exact hacc

theorem lookupW_setW_self (m : WordMap) (w : Str) (e : Entry) :
    lookupW (setW m w e) w = some e := by
  induction m with
  | nil => simp [setW, lookupW]
  | cons he rest ih =>
    obtain ⟨w', e'⟩ := he
    by_cases h : w' = w
    · simp [setW, h, lookupW]
    · simp [setW, h, lookupW, ih]

theorem lookupW_setW_ne {w w' : Str} (m : WordMap) (h : w ≠ w') (e : Entry) :
    lookupW (setW m w e) w' = lookupW m w' := by
  induction m with
  | nil => simp [setW, lookupW, h]
  | cons he rest ih =>
    obtain ⟨w0, e0⟩ := he
    by_cases h0 : w0 = w
    · subst h0
      simp [setW, lookupW, h]
    · simp [setW, h0, lookupW, ih]

theorem freqOf_setW (m : WordMap) (w w' : Str) (e : Entry) :
    freqOf (setW m w e) w' = if w = w' then e.freq.toRat else freqOf m w' := by
  by_cases h : w = w'
  · subst h; simp [freqOf, lookupW_setW_self]
  · simp [freqOf, h, lookupW_setW_ne m h]

theorem freqOf_cons (w0 : Str) (e : Entry) (m : WordMap) (w : Str) :
    freqOf ((w0, e) :: m) w = if w0 = w then e.freq.toRat else freqOf m w := by
  by_cases h : w0 = w <;> simp [freqOf, lookupW, h]

theorem freqOf_mergeAdd (m : WordMap) (w w' : Str) (f : PyNum) (p : Tags) :
    freqOf (mergeAdd m w f p) w' = freqOf m w' + if w = w' then f.toRat else 0 := by
  unfold mergeAdd
  rw [freqOf_setW]
  by_cases h : w = w'
  · subst h
    simp only [if_pos rfl]
    rw [PyNum.toRat_add]
    cases hl : lookupW m w with
    | some e => simp [freqOf, hl]
    | none => simp [freqOf, hl, PyNum.toRat_ofInt]
  · simp [h]

theorem lookupW_mergeAdd_self (m : WordMap) (w : Str) (f : PyNum) (p : Tags) :
    lookupW (mergeAdd m w f p) w =
      some ⟨((lookupW m w).getD ⟨.ofInt 0, []⟩).freq.add f,
        tagUnion ((lookupW m w).getD ⟨.ofInt 0, []⟩).pos p⟩ := by
  unfold mergeAdd
  exact lookupW_setW_self m w _

theorem freqOf_ngramLine (m : WordMap) (line : Str) (w : Str) :
    freqOf (ngramLine m line) w = freqOf m w + ngramContrib w line := by
  unfold ngramLine ngramContrib
  cases hp : parse_ngram_line line with
  | none => simp
  | some t =>
    obtain ⟨w', c, p⟩ := t
    by_cases hk : keepWord w' = true
    · by_cases hw : w' = w
      · subst hw
        simp [hk, freqOf_mergeAdd, PyNum.toRat_ofInt]
      · simp [hk, hw, freqOf_mergeAdd]
    · simp [hk]

theorem freqOf_foldl_ngram (lines : List Str) (m : WordMap) (w : Str) :
    freqOf (lines.foldl ngramLine m) w = freqOf m w + (lines.map (ngramContrib w)).sum := by
  induction lines generalizing m with
  | nil => simp
  | cons l ls ih =>
    simp only [List.foldl_cons, List.map_cons, List.sum_cons]
    rw [ih, freqOf_ngramLine]
    ring

theorem freqOf_nil (w : Str) : freqOf [] w = 0 := rfl

theorem freqOf_process_ngram (lines : List Str) (w : Str) :
    freqOf (process_ngram_file lines) w = (lines.map (ngramContrib w)).sum := by
  have h := freqOf_foldl_ngram lines [] w
  rw [freqOf_nil] at h
  simpa [process_ngram_file] using h

theorem keys_cons (w0 : Str) (e : Entry) (m : WordMap) :
    keys ((w0, e) :: m) = w0 :: keys m := rfl

theorem keys_setW (m : WordMap) (w : Str) (e : Entry) :
    keys (setW m w e) = if w ∈ keys m then keys m else keys m ++ [w] := by
  induction m with
  | nil => simp [setW, keys]
  | cons he rest ih =>
    obtain ⟨w0, e0⟩ := he
    by_cases h0 : w0 = w
    · subst h0
      simp [setW, keys_cons]
    · rw [show setW ((w0, e0) :: rest) w e = (w0, e0) :: setW rest w e by
        simp [setW, h0]]
      rw [keys_cons, keys_cons, ih]
      have hne : w ≠ w0 := fun hh => h0 hh.symm
      by_cases hm : w ∈ keys rest
      · rw [if_pos hm, if_pos (List.mem_cons_of_mem w0 hm)]
      · rw [if_neg hm, if_neg (by simp [List.mem_cons, hne, hm]), List.cons_append]

theorem lookupW_eq_none_iff {m : WordMap} {w : Str} : lookupW m w = none ↔ w ∉ keys m := by
  induction m with
  | nil => simp [lookupW, keys]
  | cons he rest ih =>
    obtain ⟨w0, e0⟩ := he
    by_cases h0 : w0 = w
    · subst h0; simp [lookupW, keys_cons]
    · simp only [lookupW, if_neg h0, keys_cons, List.mem_cons, ih]
      constructor
      · rintro h (rfl | hmem)
        · exact h0 rfl
        · exact h hmem
      · intro h hmem
        exact h (Or.inr hmem)

theorem nodup_keys_setW {m : WordMap} (h : (keys m).Nodup) (w : Str) (e : Entry) :
    (keys (setW m w e)).Nodup := by
  rw [keys_setW]
  by_cases hm : w ∈ keys m
  · simpa [hm] using h
  · rw [if_neg hm]
    rw [List.nodup_append]
    exact ⟨h, List.nodup_singleton w, by simpa using hm⟩

theorem nodup_keys_mergeAdd {m : WordMap} (h : (keys m).Nodup) (w : Str) (f : PyNum)
    (p : Tags) : (keys (mergeAdd m w f p)).Nodup :=
  nodup_keys_setW h w _

theorem nodup_keys_ngramLine {m : WordMap} (h : (keys m).Nodup) (line : Str) :
    (keys (ngramLine m line)).Nodup := by
  unfold ngramLine
  cases parse_ngram_line line with
  | none => exact h
  | some t =>
    obtain ⟨w', c, p⟩ := t
    by_cases hk : keepWord w' = true
    · simpa [hk] using nodup_keys_mergeAdd h w' (.ofInt c) p
    · simpa [hk] using h

theorem nodup_keys_process (lines : List Str) : (keys (process_ngram_file lines)).Nodup := by
  unfold process_ngram_file
  suffices hgen : ∀ m : WordMap, (keys m).Nodup → (keys (lines.foldl ngramLine m)).Nodup from
    hgen [] (by simp [keys])
  induction lines with
  | nil => intro m hm; exact hm
  | cons l ls ih =>
    intro m hm
    exact ih _ (nodup_keys_ngramLine hm l)

theorem freqOf_mergeInto (m2 : WordMap) (acc : WordMap) (w : Str)
    (h2 : (keys m2).Nodup) :
    freqOf (mergeInto acc m2) w = freqOf acc w + freqOf m2 w := by
  induction m2 generalizing acc with
  | nil => simp [mergeInto, freqOf_nil]
  | cons he rest ih =>
    obtain ⟨w0, e0⟩ := he
    rw [keys_cons] at h2
    have h2' : (keys rest).Nodup := h2.of_cons
    have hw0 : w0 ∉ keys rest := by
      have := List.nodup_cons.1 h2
      exact this.1
    have hstep : mergeInto acc ((w0, e0) :: rest) =
        mergeInto (mergeAdd acc w0 e0.freq e0.pos) rest := by
      simp [mergeInto]
    rw [hstep, ih _ h2', freqOf_mergeAdd, freqOf_cons]
    by_cases hw : w0 = w
    · subst hw
      have hz : freqOf rest w0 = 0 := by
        simp [freqOf, lookupW_eq_none_iff.2 hw0]
      rw [hz]
      simp
    · simp [hw]

theorem freqOf_mergeNgramFiles (files : List (List Str)) (w : Str) :
    freqOf (mergeNgramFiles files) w =
      (files.map (fun f => freqOf (process_ngram_file f) w)).sum := by
  unfold mergeNgramFiles
  suffices hgen : ∀ acc : WordMap,
      freqOf (files.foldl (fun acc f => mergeInto acc (process_ngram_file f)) acc) w =
        freqOf acc w + (files.map (fun f => freqOf (process_ngram_file f) w)).sum by
    have h := hgen []
    rw [freqOf_nil] at h
    simpa using h
  induction files with
  | nil => intro acc; simp
  | cons f fs ih =>
    intro acc
    simp only [List.foldl_cons, List.map_cons, List.sum_cons]
    rw [ih, freqOf_mergeInto _ _ _ (nodup_keys_process f)]
    ring

theorem mem_setW {m : WordMap} {w : Str} {e : Entry} {x : Str × Entry}
    (hx : x ∈ setW m w e) : x ∈ m ∨ (x.1 = w ∧ x.2 = e) := by
  induction m with
  | nil =>
    simp only [setW, List.mem_singleton] at hx
    right
    rw [hx]
    exact ⟨rfl, rfl⟩
  | cons he rest ih =>
    obtain ⟨w0, e0⟩ := he
    by_cases h0 : w0 = w
    · rw [show setW ((w0, e0) :: rest) w e = (w0, e) :: rest by simp [setW, h0]] at hx
      rcases List.mem_cons.1 hx with h | h
      · right
        rw [h]
        exact ⟨h0, rfl⟩
      · left
        exact List.mem_cons_of_mem _ h
    · rw [show setW ((w0, e0) :: rest) w e = (w0, e0) :: setW rest w e by simp [setW, h0]] at hx
      rcases List.mem_cons.1 hx with h | h
      · left
        exact h ▸ List.mem_cons_self _ _
      · rcases ih h with h' | h'
        · left
          exact List.mem_cons_of_mem _ h'
        · right
          exact h'

theorem lookupW_mem {m : WordMap} {w : Str} {e : Entry} (h : lookupW m w = some e) :
    (w, e) ∈ m := by
  induction m with
  | nil => simp [lookupW] at h
  | cons he rest ih =>
    obtain ⟨w0, e0⟩ := he
    by_cases h0 : w0 = w
    · rw [lookupW, if_pos h0] at h
      rw [Option.some.injEq] at h
      subst h0
      rw [← h]
      exact List.mem_cons_self _ _
    · rw [lookupW, if_neg h0] at h
      exact List.mem_cons_of_mem _ (ih h)

theorem keysSat_setW {P : Str → Prop} {m : WordMap} {w : Str} {e : Entry}
    (hm : keysSat P m) (hw : P w) : keysSat P (setW m w e) :=
  fun x hx => (mem_setW hx).elim (hm x) (fun h => h.1 ▸ hw)

theorem keysSat_mergeAdd {P : Str → Prop} {m : WordMap} {w : Str} {f : PyNum} {p : Tags}
    (hm : keysSat P m) (hw : P w) : keysSat P (mergeAdd m w f p) :=
  keysSat_setW hm hw

theorem keysSat_wfInsert {P : Str → Prop} {m : WordMap} {w : Str} {f : PyNum} {p : Tags}
    (hm : keysSat P m) (hw : P w) : keysSat P (wfInsert m w f p) := by
  unfold wfInsert
  cases lookupW m w with
  | none => exact keysSat_setW hm hw
  | some e => exact keysSat_setW hm hw

theorem keysSat_csvInsert {P : Str → Prop} {m : WordMap} {w : Str} {f : PyNum}
    (hm : keysSat P m) (hw : P w) : keysSat P (csvInsert m w f) := by
  unfold csvInsert
  cases lookupW m w with
  | none => exact keysSat_setW hm hw
  | some e =>
    show keysSat P (if e.freq.lt f then setW m w ⟨f, e.pos⟩ else m)
    by_cases hlt : e.freq.lt f
    · rw [if_pos hlt]
      exact keysSat_setW hm hw
    · rw [if_neg hlt]
      exact hm

theorem lowChars_parse_ngram {line w : Str} {c : Int} {p : Tags}
    (h : parse_ngram_line line = some (w, c, p)) : lowChars w := by
  simp only [parse_ngram_line] at h
  split at h
  · split at h
    · simp only [Option.some.injEq, Prod.mk.injEq] at h
      obtain ⟨h1, _, _⟩ := h
      split at h1
      · exact h1 ▸ lowChars_splitFirst_fst (lowChars_lowerStr _)
      · exact h1 ▸ lowChars_lowerStr _
    · exact absurd h (by simp)
  · exact absurd h (by simp)

theorem lowChars_parse_wf_sep {sep : Char} {line w : Str} {f : PyNum} {p : Tags}
    (h : parse_wf_sep sep line = some (w, f, p)) : lowChars w := by
  simp only [parse_wf_sep] at h
  by_cases h1 : sep ∈ line
  case neg => rw [if_neg h1] at h; exact absurd h (by simp)
  rw [if_pos h1] at h
  by_cases h2 : 4 ≤ (splitOnChar sep (stripChars line)).length
  case neg => rw [if_neg h2] at h; exact absurd h (by simp)
  rw [if_pos h2] at h
  cases h3 : parseInt ((splitOnChar sep (stripChars line)).getD 0 []) with
  | none => rw [h3] at h; exact absurd h (by simp)
  | some rk =>
    rw [h3] at h
    cases h4 : firstFloat (List.drop 3 (splitOnChar sep (stripChars line))) with
    | none => rw [h4] at h; exact absurd h (by simp)
    | some fv =>
      rw [h4] at h
      by_cases h5 : '_' ∈ lowerStr (stripChars ((splitOnChar sep (stripChars line)).getD 1 []))
      · rw [if_pos h5] at h
        dsimp only at h
        split at h
        · exact absurd h (by simp)
        · simp only [Option.some.injEq, Prod.mk.injEq] at h
          obtain ⟨hw1, _, _⟩ := h
          exact hw1 ▸ lowChars_splitFirst_fst (lowChars_lowerStr _)
      · rw [if_neg h5] at h
        dsimp only at h
        split at h
        · exact absurd h (by simp)
        · simp only [Option.some.injEq, Prod.mk.injEq] at h
          obtain ⟨hw1, _, _⟩ := h
          exact hw1 ▸ lowChars_lowerStr _

theorem parse_wf_cases {line : Str} {v : Str × PyNum × Tags}
    (h : parse_wordfrequency_line line = some v) :
    parse_wf_sep '\t' line = some v ∨ parse_wf_sep '|' line = some v ∨
      parse_wf_sep ',' line = some v := by
  unfold parse_wordfrequency_line at h
  cases h1 : parse_wf_sep '\t' line with
  | some v1 =>
    rw [h1] at h
    simp only [Option.some_orElse] at h
    exact .inl h
  | none =>
    rw [h1] at h
    simp only [Option.none_orElse] at h
    cases h2 : parse_wf_sep '|' line with
    | some v2 =>
      rw [h2] at h
      simp only [Option.some_orElse] at h
      exact .inr (.inl h)
    | none =>
      rw [h2] at h
      simp only [Option.none_orElse] at h
      exact .inr (.inr h)

theorem lowChars_parse_wf {line w : Str} {f : PyNum} {p : Tags}
    (h : parse_wordfrequency_line line = some (w, f, p)) : lowChars w := by
  rcases parse_wf_cases h with h1 | h1 | h1 <;> exact lowChars_parse_wf_sep h1

theorem keysSat_ngramLine {m : WordMap} (hm : keysSat goodW m) (line : Str) :
    keysSat goodW (ngramLine m line) := by
  unfold ngramLine
  cases hp : parse_ngram_line line with
  | none => exact hm
  | some t =>
    obtain ⟨w', c, p⟩ := t
    show keysSat goodW (if keepWord w' = true then mergeAdd m w' (.ofInt c) p else m)
    by_cases hk : keepWord w' = true
    · rw [if_pos hk]
      exact keysSat_mergeAdd hm ⟨hk, lowChars_parse_ngram hp⟩
    · rw [if_neg hk]
      exact hm

theorem keysSat_process (lines : List Str) : keysSat goodW (process_ngram_file lines) := by
  unfold process_ngram_file
  suffices hgen : ∀ m : WordMap, keysSat goodW m → keysSat goodW (lines.foldl ngramLine m) from
    hgen [] (by intro x hx; simp at hx)
  induction lines with
  | nil => exact fun m hm => hm
  | cons l ls ih => exact fun m hm => ih _ (keysSat_ngramLine hm l)

theorem keysSat_mergeInto {acc m2 : WordMap} (hacc : keysSat goodW acc)
    (hm2 : keysSat goodW m2) : keysSat goodW (mergeInto acc m2) := by
  induction m2 generalizing acc with
  | nil => exact hacc
  | cons he rest ih =>
    rw [show mergeInto acc (he :: rest) =
      mergeInto (mergeAdd acc he.1 he.2.freq he.2.pos) rest by simp [mergeInto]]
    exact ih (keysSat_mergeAdd hacc (hm2 he (List.mem_cons_self he rest)))
      (fun x hx => hm2 x (List.mem_cons_of_mem he hx))

theorem keysSat_wfLine {m : WordMap} (hm : keysSat goodW m) (line : Str) :
    keysSat goodW (wfLine m line) := by
  unfold wfLine
  cases hp : parse_wordfrequency_line line with
  | none => exact hm
  | some t =>
    obtain ⟨w', f, p⟩ := t
    show keysSat goodW (if keepWord w' = true then wfInsert m w' f p else m)
    by_cases hk : keepWord w' = true
    · rw [if_pos hk]
      exact keysSat_wfInsert hm ⟨hk, lowChars_parse_wf hp⟩
    · rw [if_neg hk]
      exact hm

theorem keysSat_wfGo (lines : List Str) :
    ∀ (hs : Bool) (n : Nat) (m : WordMap), keysSat goodW m → keysSat goodW (wfGo hs n m lines) := by
  induction lines with
  | nil => exact fun hs n m hm => hm
  | cons l ls ih =>
    intro hs n m hm
    unfold wfGo
    split
    · exact ih _ _ _ hm
    · exact ih _ _ _ (keysSat_wfLine hm l)

theorem keysSat_csvLine {m : WordMap} (hm : keysSat goodW m) (line : Str) :
    keysSat goodW (csvLine m line) := by
  simp only [csvLine]
  by_cases hlen : 2 ≤ (splitOnChar ',' (stripChars line)).length
  case neg => rw [if_neg hlen]; exact hm
  rw [if_pos hlen]
  cases parseFloat (stripChars ((splitOnChar ',' (stripChars line)).getD 1 [])) with
  | none => exact hm
  | some f =>
    show keysSat goodW (if keepWord (lowerStr (stripChars
      ((splitOnChar ',' (stripChars line)).getD 0 []))) = true then
        csvInsert m (lowerStr (stripChars ((splitOnChar ',' (stripChars line)).getD 0 []))) f
      else m)
    by_cases hk : keepWord (lowerStr (stripChars
        ((splitOnChar ',' (stripChars line)).getD 0 []))) = true
    · rw [if_pos hk]
      exact keysSat_csvInsert hm ⟨hk, lowChars_lowerStr _⟩
    · rw [if_neg hk]
      exact hm

theorem keysSat_csvGo (lines : List Str) :
    ∀ (hs : Bool) (m : WordMap), keysSat goodW m → keysSat goodW (csvGo hs m lines) := by
  induction lines with
  | nil => exact fun hs m hm => hm
  | cons l ls ih =>
    intro hs m hm
    unfold csvGo
    split
    · exact ih _ _ hm
    · exact ih _ _ (keysSat_csvLine hm l)

theorem keysSat_source (src : SourceInput) : keysSat goodW (sourceWordData src) := by
  have hnil : keysSat goodW ([] : WordMap) := by intro x hx; simp at hx
  cases src with
  | ngram files =>
    show keysSat goodW (mergeNgramFiles files)
    unfold mergeNgramFiles
    suffices hgen : ∀ acc : WordMap, keysSat goodW acc →
        keysSat goodW (files.foldl (fun acc f => mergeInto acc (process_ngram_file f)) acc) from
      hgen [] hnil
    induction files with
    | nil => exact fun acc hacc => hacc
    | cons f fs ih =>
      exact fun acc hacc => ih _ (keysSat_mergeInto hacc (keysSat_process f))
  | wordfreq lines => exact keysSat_wfGo lines false 0 [] hnil
  | csv lines => exact keysSat_csvGo lines false [] hnil

theorem nonnegMap_nil : nonnegMap [] := fun x hx => absurd hx (List.not_mem_nil x)

theorem nonnegMap_setW {m : WordMap} {w : Str} {e : Entry} (hm : nonnegMap m)
    (he : 0 ≤ e.freq.toRat) : nonnegMap (setW m w e) := by
  intro x hx
  rcases mem_setW hx with h | h
  · exact hm x h
  · rw [h.2]
    exact he

theorem lookup_nonneg {m : WordMap} {w : Str} {e : Entry} (hm : nonnegMap m)
    (h : lookupW m w = some e) : 0 ≤ e.freq.toRat :=
  hm (w, e) (lookupW_mem h)

theorem nonnegMap_mergeAdd {m : WordMap} {w : Str} {f : PyNum} {p : Tags}
    (hm : nonnegMap m) (hf : 0 ≤ f.toRat) : nonnegMap (mergeAdd m w f p) := by
  have he0 : 0 ≤ ((lookupW m w).getD ⟨.ofInt 0, []⟩).freq.toRat := by
    cases hl : lookupW m w with
    | none => simp [PyNum.toRat_ofInt]
    | some e => simpa using lookup_nonneg hm hl
  show nonnegMap (setW m w ⟨((lookupW m w).getD ⟨.ofInt 0, []⟩).freq.add f,
    tagUnion ((lookupW m w).getD ⟨.ofInt 0, []⟩).pos p⟩)
  apply nonnegMap_setW hm
  show 0 ≤ (((lookupW m w).getD ⟨.ofInt 0, []⟩).freq.add f).toRat
  rw [PyNum.toRat_add]
  exact add_nonneg he0 hf

theorem nonnegMap_wfInsert {m : WordMap} {w : Str} {f : PyNum} {p : Tags}
    (hm : nonnegMap m) (hf : 0 ≤ f.toRat) : nonnegMap (wfInsert m w f p) := by
  unfold wfInsert
  cases hl : lookupW m w with
  | none => exact nonnegMap_setW hm hf
  | some e =>
    show nonnegMap (setW m w ⟨if e.freq.lt f then f else e.freq, tagUnion e.pos p⟩)
    apply nonnegMap_setW hm
    show 0 ≤ (if e.freq.lt f then f else e.freq).toRat
    by_cases hlt : e.freq.lt f
    · rw [if_pos hlt]
      exact hf
    · rw [if_neg hlt]
      exact lookup_nonneg hm hl

theorem nonnegMap_csvInsert {m : WordMap} {w : Str} {f : PyNum}
    (hm : nonnegMap m) (hf : 0 ≤ f.toRat) : nonnegMap (csvInsert m w f) := by
  unfold csvInsert
  cases hl : lookupW m w with
  | none => exact nonnegMap_setW hm hf
  | some e =>
    show nonnegMap (if e.freq.lt f then setW m w ⟨f, e.pos⟩ else m)
    by_cases hlt : e.freq.lt f
    · rw [if_pos hlt]
      exact nonnegMap_setW hm hf
    · rw [if_neg hlt]
      exact hm

theorem nonnegMap_ngramLine {m : WordMap} {line : Str} (hm : nonnegMap m)
    (hline : ∀ w c p, parse_ngram_line line = some (w, c, p) → 0 ≤ c) :
    nonnegMap (ngramLine m line) := by
  unfold ngramLine
  cases hp : parse_ngram_line line with
  | none => exact hm
  | some t =>
    obtain ⟨w', c, p⟩ := t
    show nonnegMap (if keepWord w' = true then mergeAdd m w' (.ofInt c) p else m)
    by_cases hk : keepWord w' = true
    · rw [if_pos hk]
      apply nonnegMap_mergeAdd hm
      rw [PyNum.toRat_ofInt]
      exact_mod_cast hline _ _ _ hp
    · rw [if_neg hk]
      exact hm

theorem nonnegMap_wfLine {m : WordMap} {line : Str} (hm : nonnegMap m)
    (hline : ∀ w f p, parse_wordfrequency_line line = some (w, f, p) → 0 ≤ f.toRat) :
    nonnegMap (wfLine m line) := by
  unfold wfLine
  cases hp : parse_wordfrequency_line line with
  | none => exact hm
  | some t =>
    obtain ⟨w', f, p⟩ := t
    show nonnegMap (if keepWord w' = true then wfInsert m w' f p else m)
    by_cases hk : keepWord w' = true
    · rw [if_pos hk]
      exact nonnegMap_wfInsert hm (hline _ _ _ hp)
    · rw [if_neg hk]
      exact hm

theorem nonnegMap_csvLine {m : WordMap} {line : Str} (hm : nonnegMap m)
    (hline : ∀ f, parseFloat (stripChars ((splitOnChar ',' (stripChars line)).getD 1 [])) =
      some f → 0 ≤ f.toRat) :
    nonnegMap (csvLine m line) := by
  simp only [csvLine]
  by_cases hlen : 2 ≤ (splitOnChar ',' (stripChars line)).length
  case neg => rw [if_neg hlen]; exact hm
  rw [if_pos hlen]
  cases hp : parseFloat (stripChars ((splitOnChar ',' (stripChars line)).getD 1 [])) with
  | none => exact hm
  | some f =>
    show nonnegMap (if keepWord (lowerStr (stripChars
        ((splitOnChar ',' (stripChars line)).getD 0 []))) = true then
      csvInsert m (lowerStr (stripChars ((splitOnChar ',' (stripChars line)).getD 0 []))) f
      else m)
    by_cases hk : keepWord (lowerStr (stripChars
        ((splitOnChar ',' (stripChars line)).getD 0 []))) = true
    · rw [if_pos hk]
      exact nonnegMap_csvInsert hm (hline f hp)
    · rw [if_neg hk]
      exact hm

theorem nonnegMap_foldl_ngram (lines : List Str) :
    ∀ m, nonnegMap m →
      (∀ line ∈ lines, ∀ w c p, parse_ngram_line line = some (w, c, p) → 0 ≤ c) →
      nonnegMap (lines.foldl ngramLine m) := by
  induction lines with
  | nil => exact fun m hm _ => hm
  | cons l ls ih =>
    intro m hm hlines
    exact ih _ (nonnegMap_ngramLine hm (hlines l (List.mem_cons_self l ls)))
      (fun line hl => hlines line (List.mem_cons_of_mem l hl))

theorem nonnegMap_wfGo (lines : List Str) :
    ∀ (hs : Bool) (n : Nat) (m : WordMap), nonnegMap m →
      (∀ line ∈ lines, ∀ w f p, parse_wordfrequency_line line = some (w, f, p) → 0 ≤ f.toRat) →
      nonnegMap (wfGo hs n m lines) := by
  induction lines with
  | nil => exact fun hs n m hm _ => hm
  | cons l ls ih =>
    intro hs n m hm hlines
    unfold wfGo
    split
    · exact ih _ _ _ hm (fun line hl => hlines line (List.mem_cons_of_mem l hl))
    · exact ih _ _ _ (nonnegMap_wfLine hm (hlines l (List.mem_cons_self l ls)))
        (fun line hl => hlines line (List.mem_cons_of_mem l hl))

theorem nonnegMap_csvGo (lines : List Str) :
    ∀ (hs : Bool) (m : WordMap), nonnegMap m →
      (∀ line ∈ lines, ∀ f, parseFloat (stripChars
        ((splitOnChar ',' (stripChars line)).getD 1 [])) = some f → 0 ≤ f.toRat) →
      nonnegMap (csvGo hs m lines) := by
  induction lines with
  | nil => exact fun hs m hm _ => hm
  | cons l ls ih =>
    intro hs m hm hlines
    unfold csvGo
    split
    · exact ih _ _ hm (fun line hl => hlines line (List.mem_cons_of_mem l hl))
    · exact ih _ _ (nonnegMap_csvLine hm (hlines l (List.mem_cons_self l ls)))
        (fun line hl => hlines line (List.mem_cons_of_mem l hl))

theorem nonnegMap_mergeInto {acc m2 : WordMap} (hacc : nonnegMap acc)
    (hm2 : nonnegMap m2) : nonnegMap (mergeInto acc m2) := by
  induction m2 generalizing acc with
  | nil => exact hacc
  | cons he rest ih =>
    rw [show mergeInto acc (he :: rest) =
      mergeInto (mergeAdd acc he.1 he.2.freq he.2.pos) rest by simp [mergeInto]]
    exact ih (nonnegMap_mergeAdd hacc (hm2 he (List.mem_cons_self he rest)))
      (fun x hx => hm2 x (List.mem_cons_of_mem he hx))

/-! ### Claim theorems -/

/-- C5: `normalize_pos` never fails and only ever returns tags from the fixed
vocabulary {N, V, Adj, Adv, Prep, Conj, Pron, Det}; unmatched text yields the
empty set; `"n., v."` yields {N, V}, `"adj."` yields {Adj}, and `"xyz."`
yields the empty set. -/
theorem normalize_pos_spec :
    (∀ s : Str, normalize_pos s ⊆ posVocab) ∧
    normalize_pos "n., v.".toList = ["N", "V"] ∧
    normalize_pos "adj.".toList = ["Adj"] ∧
    normalize_pos "xyz.".toList = [] := by
  refine ⟨?_, by decide, by decide, by decide⟩
  intro s
  unfold normalize_pos
  split
  · exact List.nil_subset _
  · apply addIf_subset (by decide)
    apply addIf_subset (by decide)
    apply addIf_subset (by decide)
    apply addIf_subset (by decide)
    apply addIf_subset (by decide)
    apply addIf_subset (by decide)
    apply addIf_subset (by decide)
    apply addIf_subset (by decide)
    exact List.nil_subset _

/-- C1: the ngram merge is strictly additive at every level.  Within one
file the aggregated frequency of a word is the sum of the match counts of
all its surviving lines; across files the merged frequency is the sum of
the per-file totals; every accumulation step unions the POS sets; and on
the concrete data of the claim, "the" with match counts 100 and 50 in one
file totals 150, and merging two such files totals 300. -/
theorem ngram_merge_additive :
    (∀ (lines : List Str) (w : Str),
        freqOf (process_ngram_file lines) w = (lines.map (ngramContrib w)).sum) ∧
    (∀ (files : List (List Str)) (w : Str),
        freqOf (mergeNgramFiles files) w =
          (files.map (fun f => freqOf (process_ngram_file f) w)).sum) ∧
    (∀ (m : WordMap) (w : Str) (f : PyNum) (p : Tags),
        lookupW (mergeAdd m w f p) w =
          some ⟨((lookupW m w).getD ⟨.ofInt 0, []⟩).freq.add f,
            tagUnion ((lookupW m w).getD ⟨.ofInt 0, []⟩).pos p⟩) ∧
    freqOf (process_ngram_file ["the\t2000\t100\t13\t5".toList, "the\t2001\t50\t12\t4".toList])
      "the".toList = 150 ∧
    freqOf (mergeNgramFiles
      [["the\t2000\t100\t13\t5".toList, "the\t2001\t50\t12\t4".toList],
        ["the\t2000\t100\t13\t5".toList, "the\t2001\t50\t12\t4".toList]]) "the".toList = 300 := by
  refine ⟨freqOf_process_ngram, freqOf_mergeNgramFiles, lookupW_mergeAdd_self, ?_, ?_⟩
  · have h : lookupW
        (process_ngram_file ["the\t2000\t100\t13\t5".toList, "the\t2001\t50\t12\t4".toList])
        "the".toList = some ⟨⟨150, 0⟩, []⟩ := by decide
    rw [freqOf, h]
    norm_num [PyNum.toRat, pow10]
  · have h : lookupW
        (mergeNgramFiles
          [["the\t2000\t100\t13\t5".toList, "the\t2001\t50\t12\t4".toList],
            ["the\t2000\t100\t13\t5".toList, "the\t2001\t50\t12\t4".toList]])
        "the".toList = some ⟨⟨300, 0⟩, []⟩ := by decide
    rw [freqOf, h]
    norm_num [PyNum.toRat, pow10]

/-- C2: in the lemma-frequency and CSV adapters a duplicate word keeps the
larger of the recorded and new frequency (max, not sum); the lemma-frequency
adapter unions the POS sets regardless of which frequency wins; concretely,
duplicates with frequencies 10.0 and 7.5 aggregate to 10.0. -/
theorem dedup_max_merge :
    (∀ (m : WordMap) (w : Str) (f f0 : PyNum) (p p0 : Tags),
        lookupW m w = some ⟨f0, p0⟩ →
          lookupW (wfInsert m w f p) w =
            some ⟨if f0.lt f then f else f0, tagUnion p0 p⟩ ∧
          (if f0.lt f then f else f0).toRat = max f0.toRat f.toRat) ∧
    (∀ (m : WordMap) (w : Str) (f f0 : PyNum) (p0 : Tags),
        lookupW m w = some ⟨f0, p0⟩ →
          lookupW (csvInsert m w f) w = some ⟨if f0.lt f then f else f0, p0⟩) ∧
    lookupW (get_top_words_from_wordfrequency
      ["h".toList, "1|cat|n.|10.0".toList, "2|cat|v.|7.5".toList]) "cat".toList =
      some ⟨⟨100, 1⟩, ["N", "V"]⟩ ∧
    (⟨100, 1⟩ : PyNum).toRat = 10 ∧
    lookupW (get_top_words_from_csv ["cat,10.0".toList, "cat,7.5".toList]) "cat".toList =
      some ⟨⟨100, 1⟩, []⟩ := by
  refine ⟨?_, ?_, by decide, by norm_num [PyNum.toRat, pow10], by decide⟩
  · intro m w f f0 p p0 hl
    constructor
    · unfold wfInsert
      rw [hl]
      exact lookupW_setW_self m w _
    · by_cases h : f0.lt f
      · rw [if_pos h]
        exact (max_eq_right (le_of_lt (PyNum.lt_iff.1 h))).symm
      · rw [if_neg h]
        exact (max_eq_left (not_lt.1 (fun hc => h (PyNum.lt_iff.2 hc)))).symm
  · intro m w f f0 p0 hl
    unfold csvInsert
    rw [hl]
    by_cases h : f0.lt f
    · simp only [if_pos h]
      exact lookupW_setW_self m w _
    · simp only [if_neg h]
      exact hl

/-- Witness for C2 at a concrete aggregate: the duplicate policy applied to a
recorded frequency 10 and a new frequency 7.5 keeps 10 and unions the tags. -/
theorem dedup_max_merge_witness :
    lookupW (wfInsert [("cat".toList, ⟨⟨10, 0⟩, ["N"]⟩)] "cat".toList ⟨75, 1⟩ ["V"])
        "cat".toList =
      some ⟨if (⟨10, 0⟩ : PyNum).lt ⟨75, 1⟩ then (⟨75, 1⟩ : PyNum) else ⟨10, 0⟩,
        tagUnion ["N"] ["V"]⟩ ∧
    (if (⟨10, 0⟩ : PyNum).lt ⟨75, 1⟩ then (⟨75, 1⟩ : PyNum) else ⟨10, 0⟩).toRat =
      max (⟨10, 0⟩ : PyNum).toRat (⟨75, 1⟩ : PyNum).toRat :=
  dedup_max_merge.1 _ _ _ _ _ _ (by decide)

theorem wfGo_true_eq_plain (ls : List Str) (n : Nat) (m : WordMap) :
    wfGo true n m ls = wfPlain m ls := by
  induction ls generalizing n m with
  | nil => rfl
  | cons l ls ih => simp [wfGo, wfPlain, List.foldl_cons, ih]

/-- C3 counterexample: on a two-line file whose second line is the data line
`1|the|def. art.|22038615`, the adapter parses that second line (the word
"the" is recorded), whereas under the claimed rule — first two lines always
skipped, plus later "rank"/"lemma" lines skipped — the result would be
empty.  So the claim's description of the header heuristic is false. -/
theorem wf_header_counterexample :
    get_top_words_from_wordfrequency
        ["rank|lemma|PoS|freq".toList, "1|the|def. art.|22038615".toList] ≠
      wfClaimProcess ["rank|lemma|PoS|freq".toList, "1|the|def. art.|22038615".toList] ∧
    lookupW (get_top_words_from_wordfrequency
      ["rank|lemma|PoS|freq".toList, "1|the|def. art.|22038615".toList]) "the".toList =
      some ⟨⟨22038615, 0⟩, ["Det"]⟩ ∧
    wfClaimProcess ["rank|lemma|PoS|freq".toList, "1|the|def. art.|22038615".toList] = [] := by
  exact ⟨by decide, by decide, by decide⟩

/-- C3 amended: in the lemma-frequency adapter exactly the first line of the
file is always skipped as a header, and no later line is ever skipped — the
`line_num < 2` disjunct fires on line 0, setting `header_skipped`, after
which the header test is never consulted again. -/
theorem wf_header_amended (lines : List Str) :
    get_top_words_from_wordfrequency lines = wfPlain [] (lines.drop 1) := by
  cases lines with
  | nil => rfl
  | cons l ls =>
    show wfGo false 0 [] (l :: ls) = wfPlain [] ls
    have h0 : wfHdr 0 l = true := by simp [wfHdr]
    simp [wfGo, h0, wfGo_true_eq_plain]

theorem csvGo_true_eq_plain (ls : List Str) (m : WordMap) :
    csvGo true m ls = csvPlain m ls := by
  induction ls generalizing m with
  | nil => rfl
  | cons l ls ih => simp [csvGo, csvPlain, List.foldl_cons, ih]

/-- C10: the CSV header heuristic drops at most one line per file — the first
line anywhere in the file containing "word" or "freq" (case-insensitive) —
and every other line, including all lines before the dropped one, is
processed as data. -/
theorem csv_header_rule (lines : List Str) :
    get_top_words_from_csv lines = csvPlain [] (removeFirstCsvHdr lines) := by
  suffices h : ∀ m, csvGo false m lines = csvPlain m (removeFirstCsvHdr lines) from h []
  induction lines with
  | nil => intro m; rfl
  | cons l ls ih =>
    intro m
    by_cases hl : csvHdr l
    · simp [csvGo, hl, removeFirstCsvHdr, csvGo_true_eq_plain]
    · simp [csvGo, hl, removeFirstCsvHdr, csvPlain, List.foldl_cons, ih]

/-- C8: end to end, a lemma-frequency file whose data line is
`1|the|def. art.|22038615` (explicit POS column) produces the output line
`the|Det`. -/
theorem wordfreq_end_to_end :
    runMain (.wordfreq ["rank|lemma|PoS|freq".toList, "1|the|def. art.|22038615".toList]) 1000 =
      .ok ["the|Det".toList] := by
  decide

/-- C9: if no word survives the alphabetic / length-at-most-6 filter after
all sources are processed, the run aborts with exit code 1 before writing
any output.  (The code's emptiness check precedes the filter, but every
adapter only inserts words that already pass it, so the filtered aggregate
equals the aggregate and emptiness of one is emptiness of the other.) -/
theorem empty_result_aborts (src : SourceInput) (topN : Nat)
    (h : (sourceWordData src).filter (fun x => finalKeep x.1) = []) :
    runMain src topN = .error () := by
  have hall : ∀ x ∈ sourceWordData src, finalKeep x.1 = true := by
    intro x hx
    have hk := (keysSat_source src x hx).1
    unfold keepWord at hk
    unfold finalKeep
    simp only [Bool.and_eq_true] at hk ⊢
    exact ⟨hk.1.2, hk.2⟩
  have hfilter : (sourceWordData src).filter (fun x => finalKeep x.1) = sourceWordData src :=
    List.filter_eq_self.2 hall
  rw [hfilter] at h
  simp [runMain, h]

/-- Witness for C9: a CSV file whose only word fails the length filter
yields an empty filtered aggregate, and the run aborts. -/
theorem empty_result_aborts_witness :
    (sourceWordData (.csv ["toolong,5".toList])).filter (fun x => finalKeep x.1) = [] ∧
    runMain (.csv ["toolong,5".toList]) 10 = .error () :=
  ⟨by decide, empty_result_aborts _ 10 (by decide)⟩

/-- C4: every entry of the ranked output — for any source kind and any
top-N — has a word of length at most 6, made of alphabetic characters
only, and already lowercase (fixed by lowercasing). -/
theorem output_words_wellformed (src : SourceInput) (topN : Nat) (w : Str) (e : Entry)
    (h : (w, e) ∈ rankedEntries (sourceWordData src) topN) :
    w.length ≤ 6 ∧ (∀ c ∈ w, c.isAlpha = true) ∧ lowerStr w = w := by
  have hmem : (w, e) ∈ (sourceWordData src).filter (fun x => finalKeep x.1) := by
    have h1 : (w, e) ∈ List.insertionSort freqGE
        ((sourceWordData src).filter (fun x => finalKeep x.1)) :=
      List.take_subset _ _ h
    exact (List.perm_insertionSort freqGE _).mem_iff.1 h1
  have h2 := List.mem_filter.1 hmem
  have hfk : finalKeep w = true := h2.2
  have hlow : lowChars w := (keysSat_source src (w, e) h2.1).2
  unfold finalKeep pyIsAlphaStr at hfk
  simp only [Bool.and_eq_true, decide_eq_true_eq, List.all_eq_true] at hfk
  exact ⟨hfk.1, hfk.2.2, lowerStr_eq_self hlow⟩

/-- Witness for C4: the single ranked entry of a one-line CSV run. -/
theorem output_words_wellformed_witness :
    ("cat".toList, (⟨⟨500, 0⟩, []⟩ : Entry)) ∈
      rankedEntries (sourceWordData (.csv ["cat,500".toList])) 1 ∧
    ("cat".toList.length ≤ 6 ∧ (∀ c ∈ "cat".toList, c.isAlpha = true) ∧
      lowerStr "cat".toList = "cat".toList) :=
  ⟨by decide,
    output_words_wellformed (.csv ["cat,500".toList]) 1 "cat".toList ⟨⟨500, 0⟩, []⟩ (by decide)⟩

/-- C6: when a run produces output, the number of output lines is at most
the requested top-N, the frequencies of the ranked entries are
non-increasing in line order, and the output lines are exactly the
formatted ranked entries. -/
theorem ranked_output_sorted (src : SourceInput) (topN : Nat) (lines : List Str)
    (h : runMain src topN = .ok lines) :
    lines.length ≤ topN ∧
    ((rankedEntries (sourceWordData src) topN).map
      (fun x => x.2.freq.toRat)).Pairwise (fun a b => b ≤ a) ∧
    lines = (rankedEntries (sourceWordData src) topN).map (fun x => formatLine x.1 x.2) := by
  have hlines : lines =
      (rankedEntries (sourceWordData src) topN).map (fun x => formatLine x.1 x.2) := by
    simp only [runMain] at h
    split at h
    · exact absurd h (by simp)
    · exact (Except.ok.inj h).symm
  refine ⟨?_, ?_, hlines⟩
  · rw [hlines, List.length_map]
    unfold rankedEntries
    exact List.length_take_le _ _
  · have hs : List.Pairwise freqGE (List.insertionSort freqGE
        ((sourceWordData src).filter (fun x => finalKeep x.1))) :=
      List.sorted_insertionSort freqGE _
    have ht : List.Pairwise freqGE (rankedEntries (sourceWordData src) topN) :=
      List.Pairwise.sublist (List.take_sublist _ _) hs
    exact List.Pairwise.map _ (fun a b hab => PyNum.le_iff.1 hab) ht

/-- Witness for C6: a two-word CSV run with top-N 1. -/
theorem ranked_output_sorted_witness :
    (["cat".toList] : List Str).length ≤ 1 ∧
    ((rankedEntries (sourceWordData (.csv ["cat,500".toList, "apple,300".toList])) 1).map
      (fun x => x.2.freq.toRat)).Pairwise (fun a b => b ≤ a) ∧
    ["cat".toList] = (rankedEntries
      (sourceWordData (.csv ["cat,500".toList, "apple,300".toList])) 1).map
        (fun x => formatLine x.1 x.2) :=
  ranked_output_sorted _ 1 _ (by decide)

/-- C7 counterexample: nothing in the code enforces non-negativity — the CSV
adapter accepts the line `cat,-5` and records frequency −5, so "the recorded
frequency is non-negative" is false as stated. -/
theorem freq_nonneg_counterexample :
    lookupW (get_top_words_from_csv ["cat,-5".toList]) "cat".toList = some ⟨⟨-5, 0⟩, []⟩ ∧
    (⟨-5, 0⟩ : PyNum).toRat < 0 :=
  ⟨by decide, by norm_num [PyNum.toRat, pow10]⟩

/-- C7 amended: provided the frequencies parsed from the inputs are
non-negative, every recorded frequency is non-negative (for each adapter and
for the cross-file ngram merge); and no merge step decreases the previously
recorded frequency of a word — unconditionally for the max-merges of the
lemma-frequency and CSV adapters, and for the additive ngram merge whenever
the added contribution is non-negative. -/
theorem freq_nonneg_monotone :
    (∀ (m : WordMap) (w wq : Str) (f : PyNum) (p : Tags) (e : Entry),
        0 ≤ f.toRat → lookupW m wq = some e →
          ∃ e2, lookupW (mergeAdd m w f p) wq = some e2 ∧ e.freq.toRat ≤ e2.freq.toRat) ∧
    (∀ (m : WordMap) (w wq : Str) (f : PyNum) (p : Tags) (e : Entry),
        lookupW m wq = some e →
          ∃ e2, lookupW (wfInsert m w f p) wq = some e2 ∧ e.freq.toRat ≤ e2.freq.toRat) ∧
    (∀ (m : WordMap) (w wq : Str) (f : PyNum) (e : Entry),
        lookupW m wq = some e →
          ∃ e2, lookupW (csvInsert m w f) wq = some e2 ∧ e.freq.toRat ≤ e2.freq.toRat) ∧
    (∀ lines : List Str,
        (∀ line ∈ lines, ∀ w c p, parse_ngram_line line = some (w, c, p) → 0 ≤ c) →
          nonnegMap (process_ngram_file lines)) ∧
    (∀ lines : List Str,
        (∀ line ∈ lines, ∀ w f p, parse_wordfrequency_line line = some (w, f, p) →
          0 ≤ f.toRat) →
          nonnegMap (get_top_words_from_wordfrequency lines)) ∧
    (∀ lines : List Str,
        (∀ line ∈ lines, ∀ f, parseFloat (stripChars
          ((splitOnChar ',' (stripChars line)).getD 1 [])) = some f → 0 ≤ f.toRat) →
          nonnegMap (get_top_words_from_csv lines)) ∧
    (∀ acc m2 : WordMap, nonnegMap acc → nonnegMap m2 → nonnegMap (mergeInto acc m2)) := by
  refine ⟨?_, ?_, ?_, ?_, ?_, ?_, fun acc m2 => nonnegMap_mergeInto⟩
  · intro m w wq f p e hf hl
    by_cases hw : w = wq
    · subst hw
      refine ⟨_, lookupW_mergeAdd_self m w f p, ?_⟩
      rw [hl]
      show e.freq.toRat ≤ (((some e).getD ⟨.ofInt 0, []⟩).freq.add f).toRat
      rw [Option.getD_some, PyNum.toRat_add]
      linarith
    · refine ⟨e, ?_, le_refl _⟩
      show lookupW (setW m w ⟨((lookupW m w).getD ⟨.ofInt 0, []⟩).freq.add f,
        tagUnion ((lookupW m w).getD ⟨.ofInt 0, []⟩).pos p⟩) wq = some e
      rw [lookupW_setW_ne m hw]
      exact hl
  · intro m w wq f p e hl
    by_cases hw : w = wq
    · subst hw
      have hins : wfInsert m w f p =
          setW m w ⟨if e.freq.lt f then f else e.freq, tagUnion e.pos p⟩ := by
        unfold wfInsert
        rw [hl]
      refine ⟨⟨if e.freq.lt f then f else e.freq, tagUnion e.pos p⟩, ?_, ?_⟩
      · rw [hins]
        exact lookupW_setW_self m w _
      · show e.freq.toRat ≤ (if e.freq.lt f then f else e.freq).toRat
        by_cases hlt : e.freq.lt f
        · rw [if_pos hlt]
          exact le_of_lt (PyNum.lt_iff.1 hlt)
        · rw [if_neg hlt]
    · unfold wfInsert
      cases hlm : lookupW m w with
      | none => exact ⟨e, by rw [lookupW_setW_ne m hw]; exact hl, le_refl _⟩
      | some e0 => exact ⟨e, by rw [lookupW_setW_ne m hw]; exact hl, le_refl _⟩
  · intro m w wq f e hl
    by_cases hw : w = wq
    · subst hw
      unfold csvInsert
      rw [hl]
      show ∃ e2, lookupW (if e.freq.lt f then setW m w ⟨f, e.pos⟩ else m) w = some e2 ∧
        e.freq.toRat ≤ e2.freq.toRat
      by_cases hlt : e.freq.lt f
      · rw [if_pos hlt]
        exact ⟨⟨f, e.pos⟩, lookupW_setW_self m w _, le_of_lt (PyNum.lt_iff.1 hlt)⟩
      · rw [if_neg hlt]
        exact ⟨e, hl, le_refl _⟩
    · unfold csvInsert
      cases hlm : lookupW m w with
      | none => exact ⟨e, by rw [lookupW_setW_ne m hw]; exact hl, le_refl _⟩
      | some e0 =>
        show ∃ e2, lookupW (if e0.freq.lt f then setW m w ⟨f, e0.pos⟩ else m) wq = some e2 ∧
          e.freq.toRat ≤ e2.freq.toRat
        by_cases hlt : e0.freq.lt f
        · rw [if_pos hlt]
          exact ⟨e, by rw [lookupW_setW_ne m hw]; exact hl, le_refl _⟩
        · rw [if_neg hlt]
          exact ⟨e, hl, le_refl _⟩
  · exact fun lines hlines => nonnegMap_foldl_ngram lines [] nonnegMap_nil hlines
  · exact fun lines hlines => nonnegMap_wfGo lines false 0 [] nonnegMap_nil hlines
  · exact fun lines hlines => nonnegMap_csvGo lines false [] nonnegMap_nil hlines

/-- Witness for C7 at a concrete aggregate: an ngram accumulation step with a
non-negative contribution does not decrease the recorded frequency. -/
theorem freq_nonneg_monotone_witness :
    ∃ e2, lookupW (mergeAdd [("cat".toList, ⟨⟨3, 0⟩, []⟩)] "cat".toList ⟨2, 0⟩ [])
        "cat".toList = some e2 ∧
      (⟨⟨3, 0⟩, []⟩ : Entry).freq.toRat ≤ e2.freq.toRat :=
  freq_nonneg_monotone.1 [("cat".toList, ⟨⟨3, 0⟩, []⟩)] "cat".toList "cat".toList ⟨2, 0⟩ []
    ⟨⟨3, 0⟩, []⟩ (by norm_num [PyNum.toRat, pow10]) (by decide)

end Glossia
